import Mathlib

/-!
Verification development for the `debate` package (tabbycat fork).

The central object is the break computation of `debate/breaking.py`
(`_generate_teams_breaking`, `update_all_teams_breaking`), together with
`AdjudicatorAllocation.valid` / `.save` and `Round.make_debates` from
`debate/models.py`.  Database rows are modelled as a lookup function from
team ids to rows; querysets are modelled as the lists they iterate over.

Two places of `breaking.py` are corrupted in the source and are recorded
as such in the theorems below:
* the backfill block (lines 188-205) is truncated mid-statement
  (`num_teams_to_cap_in -=` is a syntax error and `capped_breakingteams`
  is never defined), so the embedding of `_generate_teams_breaking`
  contains no backfill step: as written that block can never execute;
* `_capped_out` is declared as `def _capped_out(bt, category,
  num_teams_from_institution)` but called as
  `_capped_out(category, num_teams_from_institution[team.institution],
  cur_rank)`, and its body reads `cur_rank`, which is not bound in the
  definition.  The embedding `capped_out` keeps the body verbatim and
  binds the parameters the way the single call site passes them.

The field `BreakCategory.institution_cap_rule` and its three constants are
referenced by `breaking.py` but their declaration is not part of the
source tree given here.  Modelled from the spec: the configuration enum
`institution_cap_rule: enum{none, flat, aida_2016}`, where `flat`
corresponds to the constant `INSTITUTION_CAP_RULE_AIDA_PRE_2015` used in
`_capped_out`.
-/

namespace Tabbycat

/-- Remark codes of `BreakingTeam` (models.py lines 494-507).  The Django
field is nullable and blank-able; both falsy values are modelled as
`Option.none`. -/
inductive Remark where
  | capped
  | ineligible
  | differentBreak
  | disqualified
  | lostCoinToss
  | withdrawn
deriving DecidableEq

/-- Modelled from the spec: the institution-cap rule enum
(`institution_cap_rule: enum{none, flat, aida_2016}`); the declaration of
the field and of the constants `INSTITUTION_CAP_RULE_NONE`,
`INSTITUTION_CAP_RULE_AIDA_PRE_2015`, `INSTITUTION_CAP_RULE_AIDA_2016`
is referenced by breaking.py but missing from the given source tree. -/
inductive CapRule where
  | capNone
  | aidaPre2015
  | aida2016
deriving DecidableEq

/-- The data of one team as seen by `_generate_teams_breaking`: its id,
its institution (models.py line 331), its standings annotations
`points` and `speaker_score` (added by `annotate_team_standings`, which
lives in `standings.py`, outside the given source tree; only the two
annotated fields are read here), and whether
`team.break_categories.filter(pk=category.pk).exists()` holds for the
category under computation (breaking.py line 158). -/
structure Team where
  id : Nat
  institution : Nat
  points : Nat
  speaker_score : Int
  in_break_category : Bool
deriving DecidableEq

/-- The fields of `BreakCategory` (models.py lines 294-302) read by the
break computation. -/
structure BreakCategory where
  break_size : Nat
  institution_cap : Nat
  institution_cap_rule : CapRule
  priority : Int
deriving DecidableEq

/-- One stored `BreakingTeam` row (models.py lines 488-512), without the
foreign keys, which are the indices of the store. -/
structure BreakingTeamRow where
  rank : Nat
  break_rank : Option Nat
  remark : Option Remark
deriving DecidableEq

/-- The `BreakingTeam` table restricted to one category: at most one row
per team id (enforced by `unique_together = [('break_category', 'team')]`). -/
abbrev Store := Nat → Option BreakingTeamRow

/-- The store with no rows. -/
def emptyStore : Store := fun _ => Option.none

/-- Association-list lookup used for the rows produced by one run. -/
def getRow : List (Nat × BreakingTeamRow) → Nat → Option BreakingTeamRow
  | [], _ => Option.none
  | (k, r) :: rest, i => if k = i then some r else getRow rest i

/-- `Counter()` value lookup, defaulting to 0 (breaking.py line 126). -/
def countOf : List (Nat × Nat) → Nat → Nat
  | [], _ => 0
  | (k, v) :: rest, i => if k = i then v else countOf rest i

/-- `num_teams_from_institution[team.institution] += 1`
(breaking.py line 186). -/
def bump : List (Nat × Nat) → Nat → List (Nat × Nat)
  | [], i => [(i, 1)]
  | (k, v) :: rest, i => if k = i then (k, v + 1) :: rest else (k, v) :: bump rest i

/-- `_capped_out` (breaking.py lines 219-230).  The body is kept verbatim;
the parameters are bound the way the one call site
`_capped_out(category, num_teams_from_institution[team.institution],
cur_rank)` (line 162) passes them, because the literal parameter list
`(bt, category, num_teams_from_institution)` of the source does not match
that call and leaves the body's `cur_rank` unbound (see the C4 analysis). -/
def capped_out (category : BreakCategory) (num_teams_from_institution : Nat)
    (cur_rank : Nat) : Bool :=
  match category.institution_cap_rule with
  | CapRule.capNone => false
  | CapRule.aidaPre2015 => category.institution_cap ≤ num_teams_from_institution
  | CapRule.aida2016 =>
      if cur_rank ≤ category.break_size then
        category.institution_cap ≤ num_teams_from_institution
      else
        1 ≤ num_teams_from_institution

/-- The loop state of the ranking walk of `_generate_teams_breaking`
(breaking.py lines 115-127): `stopped` records that a `break` statement
has exited the loop, `i` is the next value of the 1-based `enumerate`
counter, `rows` collects the `BreakingTeam` rows built so far (the union
of `breakingteams_to_create` and `breakingteams_to_save`, in processing
order), and `teams_breaking` the ids of the admitted teams. -/
structure LoopState where
  stopped : Bool
  i : Nat
  prev_rank_value : Option (Nat × Int)
  cur_rank : Nat
  cur_break_rank : Nat
  cur_break_seq : Nat
  teams_breaking : List Nat
  num_teams_from_institution : List (Nat × Nat)
  rows : List (Nat × BreakingTeamRow)
deriving DecidableEq

/-- Initial loop state (breaking.py lines 115-126). -/
def initState : LoopState :=
  { stopped := false
    i := 1
    prev_rank_value := Option.none
    cur_rank := 0
    cur_break_rank := 0
    cur_break_seq := 0
    teams_breaking := []
    num_teams_from_institution := []
    rows := [] }

/-- `rank_value = (team.points, team.speaker_score)` (breaking.py
line 139). -/
def rankValue (team : Team) : Nat × Int :=
  (team.points, team.speaker_score)

/-- `is_new_rank = rank_value != prev_rank_value` (breaking.py
line 140). -/
def isNewRank (st : LoopState) (team : Team) : Bool :=
  decide (st.prev_rank_value ≠ some (rankValue team))

/-- The value `cur_rank` holds after lines 149-150: the enumerate index
on a new rank value, the previous `cur_rank` otherwise. -/
def curRankAt (st : LoopState) (team : Team) : Nat :=
  if isNewRank st team then st.i else st.cur_rank

/-- The two `break` conditions of the walk (breaking.py lines 140-148):
when the team starts a new `(points, speaker_score)` rank value, the loop
exits if `break_size` teams are already breaking, and, under the AIDA 2016
rule, also if the team's points have dropped below 5. -/
def stopHere (category : BreakCategory) (st : LoopState) (team : Team) : Bool :=
  isNewRank st team &&
    (decide (category.break_size ≤ st.teams_breaking.length) ||
      (category.institution_cap_rule == CapRule.aida2016 && decide (team.points < 5)))

/-- The branch block of the walk (breaking.py lines 153-177), applied to a
team that the loop did not stop at.  `existing` is
`BreakingTeam.objects.get(break_category=category, team=team)` when the
row exists (lines 131-136); a fresh row starts with null `break_rank` and
null `remark` (the model defaults).  The result is the row to be saved for
the team together with the flag that the team was appended to
`teams_breaking`.  `bt.rank = cur_rank` (line 151) is applied in every
branch. -/
def stepBranch (category : BreakCategory) (higher : List Nat) (st : LoopState)
    (cur_rank : Nat) (is_new_rank : Bool) (team : Team)
    (existing : Option BreakingTeamRow) : BreakingTeamRow × Bool :=
  let bt := existing.getD { rank := 0, break_rank := Option.none, remark := Option.none }
  if existing.isSome && bt.remark.isSome then
    ({ bt with rank := cur_rank, break_rank := Option.none }, false)
  else if !team.in_break_category then
    ({ bt with rank := cur_rank, remark := some Remark.ineligible }, false)
  else if capped_out category (countOf st.num_teams_from_institution team.institution) cur_rank then
    ({ bt with rank := cur_rank, remark := some Remark.capped }, false)
  else if team.id ∈ higher then
    ({ bt with rank := cur_rank, remark := some Remark.differentBreak }, false)
  else
    ({ bt with
        rank := cur_rank
        break_rank := some (if is_new_rank then st.cur_break_seq + 1 else st.cur_break_rank) },
      true)

/-- The row and admitted flag the branch block computes for a team from
the current loop state, reading the team's stored row from `s`. -/
def stepResult (category : BreakCategory) (higher : List Nat) (s : Store)
    (st : LoopState) (team : Team) : BreakingTeamRow × Bool :=
  stepBranch category higher st (curRankAt st team) (isNewRank st team) team (s team.id)

/-- One full iteration of the walk on a team the loop did not stop at
(breaking.py lines 129-186): rank bookkeeping (lines 139-151), the branch
block, the break-rank counters of the admitted branch (lines 171-175),
the row bookkeeping (lines 179-183) and the unconditional institution
counter update (line 186). -/
def processTeam (category : BreakCategory) (higher : List Nat) (s : Store)
    (st : LoopState) (team : Team) : LoopState :=
  let res := stepResult category higher s st team
  { stopped := false
    i := st.i + 1
    prev_rank_value :=
      if isNewRank st team then some (rankValue team) else st.prev_rank_value
    cur_rank := curRankAt st team
    cur_break_rank :=
      if res.2 && isNewRank st team then st.cur_break_seq + 1 else st.cur_break_rank
    cur_break_seq := if res.2 then st.cur_break_seq + 1 else st.cur_break_seq
    teams_breaking := if res.2 then st.teams_breaking ++ [team.id] else st.teams_breaking
    num_teams_from_institution := bump st.num_teams_from_institution team.institution
    rows := st.rows ++ [(team.id, res.1)] }

/-- The ranking walk of `_generate_teams_breaking` (breaking.py lines
129-186) over the ranked eligible teams. -/
def breakingLoop (category : BreakCategory) (higher : List Nat) (s : Store) :
    LoopState → List Team → LoopState
  | st, [] => st
  | st, team :: rest =>
    if st.stopped then st
    else if stopHere category st team then { st with stopped := true }
    else breakingLoop category higher s (processTeam category higher s st team) rest

/-- `_generate_teams_breaking(category, eligible_teams,
teams_broken_higher_priority)` up to and including the walk.
`eligible_teams` is the queryset already ordered by
`annotate_team_standings` (descending by points, then speaker score;
`standings.py` is outside the given source tree).  The backfill block
(lines 188-205) is truncated by a syntax error in the source and is
therefore absent. -/
def generate_teams_breaking (category : BreakCategory) (eligible_teams : List Team)
    (teams_broken_higher_priority : List Nat) (s : Store) : LoopState :=
  breakingLoop category teams_broken_higher_priority s initState eligible_teams

/-- The stored row for team `tid` after the save and delete steps
(breaking.py lines 207-215): rows built by the walk supersede stored rows
(`bt.save()` / `bulk_create`), and every row whose `break_rank` is not
null and whose team is not in `teams_breaking` is deleted. -/
def finalRow (fin : LoopState) (s : Store) (tid : Nat) : Option BreakingTeamRow :=
  let saved := match getRow fin.rows tid with
    | some r => some r
    | Option.none => s tid
  match saved with
  | some r =>
      if r.break_rank.isSome && !(decide (tid ∈ fin.teams_breaking)) then Option.none
      else some r
  | Option.none => Option.none

/-- The full store transformation of `_generate_teams_breaking`:
walk, save, delete. -/
def update_teams_breaking (category : BreakCategory) (eligible_teams : List Team)
    (teams_broken_higher_priority : List Nat) (s : Store) : Store :=
  fun tid =>
    finalRow (generate_teams_breaking category eligible_teams teams_broken_higher_priority s)
      s tid

/-- One category as fed to `update_all_teams_breaking`: its configuration,
its ranked eligible team list, and its slice of the `BreakingTeam` table. -/
structure CategoryInput where
  category : BreakCategory
  teams : List Team
  store : Store

/-- The accumulator of `update_all_teams_breaking` (breaking.py lines
64-66). -/
structure AllState where
  teams_broken_higher_priority : List Nat
  teams_broken_cur_priority : List Nat
  cur_priority : Option Int

/-- What one category's computation produced: the category's priority, the
exclusion set `teams_broken_higher_priority` passed to it, the returned
`this_break`, and the category's stored rows afterwards. -/
structure CatResult where
  priority : Int
  higherUsed : List Nat
  breaking : List Nat
  store : Store

/-- The loop body of `update_all_teams_breaking` (breaking.py lines
68-78): on a new priority level the current-priority set is merged into
the higher-priority set, then the category is computed against the
higher-priority set and its break is added to the current-priority set. -/
def update_all_go : AllState → List CategoryInput → List CatResult
  | _, [] => []
  | st, ci :: rest =>
    let st1 :=
      if st.cur_priority ≠ some ci.category.priority then
        { teams_broken_higher_priority :=
            st.teams_broken_higher_priority ++ st.teams_broken_cur_priority
          teams_broken_cur_priority := []
          cur_priority := some ci.category.priority }
      else st
    let fin := generate_teams_breaking ci.category ci.teams
      st1.teams_broken_higher_priority ci.store
    { priority := ci.category.priority
      higherUsed := st1.teams_broken_higher_priority
      breaking := fin.teams_breaking
      store := fun tid => finalRow fin ci.store tid } ::
      update_all_go
        { st1 with
            teams_broken_cur_priority := st1.teams_broken_cur_priority ++ fin.teams_breaking }
        rest

/-- `update_all_teams_breaking(tournament)` (breaking.py lines 60-78); the
input list is `tournament.breakcategory_set.order_by('priority')`, so the
theorems below assume it sorted by ascending priority. -/
def update_all_teams_breaking (inputs : List CategoryInput) : List CatResult :=
  update_all_go
    { teams_broken_higher_priority := []
      teams_broken_cur_priority := []
      cur_priority := Option.none }
    inputs

/-- Whether the category's stored rows give team `tid` a non-null
`break_rank`. -/
def hasBreakRank (s : Store) (tid : Nat) : Bool :=
  match s tid with
  | some r => r.break_rank.isSome
  | Option.none => false

/-- The three `DebateAdjudicator` types yielded by
`AdjudicatorAllocation.__iter__` (models.py lines 1681-1688). -/
inductive AdjType where
  | chair
  | panel
  | trainee
deriving DecidableEq

/-- `AdjudicatorAllocation` (models.py lines 1663-1718): a plain container
for the adjudicators on a panel; adjudicators are modelled by their ids. -/
structure AdjudicatorAllocation where
  chair : Option Nat
  panel : List Nat
  trainees : List Nat
deriving DecidableEq

/-- `has_chair` (models.py lines 1700-1702). -/
def AdjudicatorAllocation.has_chair (a : AdjudicatorAllocation) : Bool :=
  a.chair.isSome

/-- `valid` (models.py lines 1708-1710):
`self.has_chair and len(self.panel) % 2 == 0`. -/
def AdjudicatorAllocation.valid (a : AdjudicatorAllocation) : Bool :=
  a.has_chair && a.panel.length % 2 == 0

/-- `__iter__` (models.py lines 1681-1688): the chair when present, then
the panellists, then the trainees, each tagged with its type. -/
def AdjudicatorAllocation.iterAll (a : AdjudicatorAllocation) : List (AdjType × Nat) :=
  (match a.chair with
    | some c => [(AdjType.chair, c)]
    | Option.none => []) ++
    a.panel.map (fun x => (AdjType.panel, x)) ++
    a.trainees.map (fun x => (AdjType.trainee, x))

/-- `save` (models.py lines 1712-1718): deletes the debate's existing
`DebateAdjudicator` rows, then creates one row per iterated member whose
id is truthy (`if adj:` drops a null or zero id).  The function is
modelled by the list of rows it creates; it consults nothing but the
allocation's own members — in particular it never reads `valid`. -/
def AdjudicatorAllocation.save (a : AdjudicatorAllocation) : List (AdjType × Nat) :=
  a.iterAll.filter (fun p => p.2 != 0)

/-- `DrawError` as raised by `Round.make_debates` (models.py line 938),
carrying the debate and venue counts of its message. -/
inductive DrawError where
  | insufficient_venues (debates : Nat) (venues : Nat)
deriving DecidableEq

/-- An active venue as read by `make_debates`: its id and, for division
draws, the id of its venue group.  The venue list is
`self.active_venues.order_by('-priority')`, so it arrives already sorted
by descending priority. -/
structure Venue where
  id : Nat
  group : Option Nat
deriving DecidableEq

/-- The fields of a generated pairing read by `make_debates` (models.py
lines 943-963): the two teams (ids plus whether each is a bye-type team),
the division's venue group when the pairing belongs to a division, the
bracket, the room rank and the flags. -/
structure DrawPairing where
  team1 : Nat
  team2 : Nat
  team1_bye : Bool
  team2_bye : Bool
  division : Option Nat
  bracket : Int
  room_rank : Nat
  flags : List Nat
deriving DecidableEq

/-- A persisted `Debate` with its two `DebateTeam` rows as created by
`make_debates` (models.py lines 958-970). -/
structure Debate where
  venue : Option Nat
  division : Option Nat
  bracket : Int
  room_rank : Nat
  flags : List Nat
  aff : Nat
  neg : Nat
deriving DecidableEq

/-- The debate-creation loop of `make_debates` (models.py lines 943-970).
A division pairing with a bye team gets no venue; a division pairing
otherwise takes the first remaining venue of its division's group (the
bare `except` turns a failed search into no venue); a divisionless
pairing pops the first remaining venue (the bare `except` turns an empty
list into no venue).  The two `random.shuffle` calls only permute which
venue each debate receives and are modelled as the identity
permutation. -/
def makeDebatesGo : List Venue → List DrawPairing → List Debate
  | _, [] => []
  | vs, p :: rest =>
    match p.division with
    | some g =>
        if p.team1_bye || p.team2_bye then
          { venue := Option.none, division := p.division, bracket := p.bracket,
            room_rank := p.room_rank, flags := p.flags, aff := p.team1, neg := p.team2 } ::
            makeDebatesGo vs rest
        else
          match vs.find? (fun v => v.group == some g) with
          | some v =>
              { venue := some v.id, division := p.division, bracket := p.bracket,
                room_rank := p.room_rank, flags := p.flags, aff := p.team1, neg := p.team2 } ::
                makeDebatesGo (vs.eraseP (fun w => w.id == v.id)) rest
          | Option.none =>
              { venue := Option.none, division := p.division, bracket := p.bracket,
                room_rank := p.room_rank, flags := p.flags, aff := p.team1, neg := p.team2 } ::
                makeDebatesGo vs rest
    | Option.none =>
        match vs with
        | [] =>
            { venue := Option.none, division := Option.none, bracket := p.bracket,
              room_rank := p.room_rank, flags := p.flags, aff := p.team1, neg := p.team2 } ::
              makeDebatesGo [] rest
        | v :: vs2 =>
            { venue := some v.id, division := Option.none, bracket := p.bracket,
              room_rank := p.room_rank, flags := p.flags, aff := p.team1, neg := p.team2 } ::
              makeDebatesGo vs2 rest

/-- `Round.make_debates(pairings)` (models.py lines 932-970): the venue
list is sliced to the pairing count, the venue-shortage check raises
`DrawError` before any debate is created, and otherwise the debates are
created one by one. -/
def make_debates (active_venues : List Venue) (pairings : List DrawPairing) :
    Except DrawError (List Debate) :=
  let venues := active_venues.take pairings.length
  if venues.length < pairings.length then
    Except.error (DrawError.insufficient_venues pairings.length venues.length)
  else
    Except.ok (makeDebatesGo venues pairings)

/-- The debates a `make_debates` call has persisted: none when it
raised. -/
def created_debates : Except DrawError (List Debate) → List Debate
  | Except.error _ => []
  | Except.ok l => l

/-! ## Concrete inputs used by individual claims -/

/-- C1: an AIDA-2016 category of break size 1. -/
def c1cat : BreakCategory := ⟨1, 3, CapRule.aida2016, 1⟩

/-- C1: two teams on distinct rank values, the second on exactly 5
points. -/
def c1teams : List Team := [⟨1, 7, 6, 70, true⟩, ⟨2, 8, 5, 60, true⟩]

/-- C2: a flat-capped category of break size 3 with institution cap 1. -/
def c2cat : BreakCategory := ⟨3, 1, CapRule.aidaPre2015, 1⟩

/-- C2: teams A, B of one institution and C of another, on distinct rank
values (the spec's end-to-end scenario 3). -/
def c2teams : List Team := [⟨1, 7, 6, 70, true⟩, ⟨2, 7, 5, 60, true⟩, ⟨3, 8, 4, 50, true⟩]

/-- C3: an uncapped general category of break size 2. -/
def c3cat : BreakCategory := ⟨2, 5, CapRule.capNone, 1⟩

/-- C3: an ineligible team opens the tie group, an eligible team of the
same `(points, speaker_score)` value follows. -/
def c3teams : List Team := [⟨1, 10, 3, 70, false⟩, ⟨2, 11, 3, 70, true⟩]

/-- C5: a priority-1 category and a priority-2 category. -/
def c5cat1 : BreakCategory := ⟨1, 5, CapRule.capNone, 1⟩

/-- C5: the later, strictly lower-precedence category. -/
def c5cat2 : BreakCategory := ⟨1, 5, CapRule.capNone, 2⟩

/-- C5: team 1 breaks in the priority-1 category and is ineligible for
the priority-2 category. -/
def c5inputs : List CategoryInput :=
  [⟨c5cat1, [⟨1, 7, 6, 70, true⟩], emptyStore⟩,
    ⟨c5cat2, [⟨1, 7, 6, 70, false⟩], emptyStore⟩]

/-- C6: a flat-capped category of break size 1 with institution cap 1. -/
def c6cat : BreakCategory := ⟨1, 1, CapRule.aidaPre2015, 1⟩

/-- C6: two teams of one institution sharing one rank value, so that the
second is processed (no stop) and capped. -/
def c6teams : List Team := [⟨1, 7, 6, 70, true⟩, ⟨2, 7, 6, 70, true⟩]

/-- C6: a prior state in which team 2 holds a row with a non-null
`break_rank` and no remark. -/
def c6store : Store :=
  fun tid => if tid == 2 then some ⟨9, some 5, Option.none⟩ else Option.none

/-- C7: an uncapped category of break size 1. -/
def c7cat : BreakCategory := ⟨1, 5, CapRule.capNone, 1⟩

/-- C7: the walk only ever reaches team 1. -/
def c7teams : List Team := [⟨1, 7, 6, 70, true⟩]

/-- C7: team 2, which the walk never reaches, holds a row with a manual
remark and a non-null `break_rank`. -/
def c7store : Store :=
  fun tid => if tid == 2 then some ⟨1, some 1, some Remark.withdrawn⟩ else Option.none

/-! ## Lemmas about the walk -/

theorem processTeam_stopped (category : BreakCategory) (higher : List Nat) (s : Store)
    (st : LoopState) (team : Team) :
    (processTeam category higher s st team).stopped = false := rfl

theorem processTeam_rows (category : BreakCategory) (higher : List Nat) (s : Store)
    (st : LoopState) (team : Team) :
    (processTeam category higher s st team).rows
      = st.rows ++ [(team.id, (stepResult category higher s st team).1)] := rfl

theorem processTeam_teams_breaking (category : BreakCategory) (higher : List Nat) (s : Store)
    (st : LoopState) (team : Team) :
    (processTeam category higher s st team).teams_breaking
      = if (stepResult category higher s st team).2 then st.teams_breaking ++ [team.id]
        else st.teams_breaking := rfl

theorem processTeam_counts (category : BreakCategory) (higher : List Nat) (s : Store)
    (st : LoopState) (team : Team) :
    (processTeam category higher s st team).num_teams_from_institution
      = bump st.num_teams_from_institution team.institution := rfl

theorem breakingLoop_nil (category : BreakCategory) (higher : List Nat) (s : Store)
    (st : LoopState) :
    breakingLoop category higher s st [] = st := rfl

theorem breakingLoop_cons_stopped (category : BreakCategory) (higher : List Nat) (s : Store)
    (st : LoopState) (team : Team) (rest : List Team) (h1 : st.stopped = true) :
    breakingLoop category higher s st (team :: rest) = st := by
  simp [breakingLoop, h1]

theorem breakingLoop_cons_stop (category : BreakCategory) (higher : List Nat) (s : Store)
    (st : LoopState) (team : Team) (rest : List Team) (h1 : st.stopped = false)
    (h2 : stopHere category st team = true) :
    breakingLoop category higher s st (team :: rest) = { st with stopped := true } := by
  simp [breakingLoop, h1, h2]

theorem breakingLoop_cons_step (category : BreakCategory) (higher : List Nat) (s : Store)
    (st : LoopState) (team : Team) (rest : List Team) (h1 : st.stopped = false)
    (h2 : stopHere category st team = false) :
    breakingLoop category higher s st (team :: rest)
      = breakingLoop category higher s (processTeam category higher s st team) rest := by
  simp [breakingLoop, h1, h2]

theorem breakingLoop_of_stopped (category : BreakCategory) (higher : List Nat) (s : Store) :
    ∀ (ts : List Team) (st : LoopState), st.stopped = true →
      breakingLoop category higher s st ts = st := by
  intro ts
  induction ts with
  | nil => intro st _; rfl
  | cons team rest _ => intro st h1; exact breakingLoop_cons_stopped _ _ _ _ _ _ h1

theorem breakingLoop_append (category : BreakCategory) (higher : List Nat) (s : Store) :
    ∀ (a b : List Team) (st : LoopState),
      breakingLoop category higher s st (a ++ b)
        = breakingLoop category higher s (breakingLoop category higher s st a) b := by
  intro a
  induction a with
  | nil => intro b st; rfl
  | cons team rest ih =>
    intro b st
    rw [List.cons_append]
    by_cases h1 : st.stopped = true
    · rw [breakingLoop_cons_stopped category higher s st team (rest ++ b) h1,
        breakingLoop_cons_stopped category higher s st team rest h1,
        breakingLoop_of_stopped category higher s b st h1]
    · rw [Bool.not_eq_true] at h1
      by_cases h2 : stopHere category st team = true
      · rw [breakingLoop_cons_stop category higher s st team (rest ++ b) h1 h2,
          breakingLoop_cons_stop category higher s st team rest h1 h2,
          breakingLoop_of_stopped category higher s b { st with stopped := true } rfl]
      · rw [Bool.not_eq_true] at h2
        rw [breakingLoop_cons_step category higher s st team (rest ++ b) h1 h2,
          breakingLoop_cons_step category higher s st team rest h1 h2, ih]

theorem breakingLoop_rows_mono (category : BreakCategory) (higher : List Nat) (s : Store) :
    ∀ (ts : List Team) (st : LoopState),
      ∃ d, (breakingLoop category higher s st ts).rows = st.rows ++ d
        ∧ ∀ p ∈ d, p.1 ∈ ts.map Team.id := by
  intro ts
  induction ts with
  | nil => intro st; exact ⟨[], by simp [breakingLoop_nil], by simp⟩
  | cons team rest ih =>
    intro st
    by_cases h1 : st.stopped = true
    · exact ⟨[], by simp [breakingLoop_cons_stopped _ _ _ _ _ _ h1], by simp⟩
    · rw [Bool.not_eq_true] at h1
      by_cases h2 : stopHere category st team = true
      · exact ⟨[], by simp [breakingLoop_cons_stop _ _ _ _ _ _ h1 h2], by simp⟩
      · rw [Bool.not_eq_true] at h2
        obtain ⟨d, hd, hmem⟩ := ih (processTeam category higher s st team)
        refine ⟨(team.id, (stepResult category higher s st team).1) :: d, ?_, ?_⟩
        · rw [breakingLoop_cons_step _ _ _ _ _ _ h1 h2, hd, processTeam_rows]
          simp
        · intro p hp
          rw [List.mem_cons] at hp
          rcases hp with hp | hp
          · simp [hp]
          · simp only [List.map_cons, List.mem_cons]
            exact Or.inr (hmem p hp)

theorem breakingLoop_breaking_mono (category : BreakCategory) (higher : List Nat) (s : Store) :
    ∀ (ts : List Team) (st : LoopState),
      ∃ d, (breakingLoop category higher s st ts).teams_breaking = st.teams_breaking ++ d
        ∧ ∀ x ∈ d, x ∈ ts.map Team.id := by
  intro ts
  induction ts with
  | nil => intro st; exact ⟨[], by simp [breakingLoop_nil], by simp⟩
  | cons team rest ih =>
    intro st
    by_cases h1 : st.stopped = true
    · exact ⟨[], by simp [breakingLoop_cons_stopped _ _ _ _ _ _ h1], by simp⟩
    · rw [Bool.not_eq_true] at h1
      by_cases h2 : stopHere category st team = true
      · exact ⟨[], by simp [breakingLoop_cons_stop _ _ _ _ _ _ h1 h2], by simp⟩
      · rw [Bool.not_eq_true] at h2
        obtain ⟨d, hd, hmem⟩ := ih (processTeam category higher s st team)
        rw [breakingLoop_cons_step _ _ _ _ _ _ h1 h2]
        by_cases hadm : (stepResult category higher s st team).2 = true
        · refine ⟨team.id :: d, ?_, ?_⟩
          · rw [hd, processTeam_teams_breaking, if_pos hadm]
            simp
          · intro x hx
            rw [List.mem_cons] at hx
            rcases hx with hx | hx
            · simp [hx]
            · simp only [List.map_cons, List.mem_cons]
              exact Or.inr (hmem x hx)
        · rw [Bool.not_eq_true] at hadm
          refine ⟨d, ?_, ?_⟩
          · rw [hd, processTeam_teams_breaking, if_neg (by simp [hadm])]
          · intro x hx
            simp only [List.map_cons, List.mem_cons]
            exact Or.inr (hmem x hx)

theorem countOf_bump : ∀ (m : List (Nat × Nat)) (i j : Nat),
    countOf (bump m i) j = if i = j then countOf m j + 1 else countOf m j := by
  intro m
  induction m with
  | nil =>
    intro i j
    by_cases h : i = j <;> simp [bump, countOf, h]
  | cons p rest ih =>
    intro i j
    obtain ⟨k, v⟩ := p
    by_cases hk : k = i
    · subst hk
      by_cases hj : k = j
      · subst hj
        simp [bump, countOf]
      · simp [bump, countOf, hj]
    · by_cases hj : k = j
      · subst hj
        have hij : ¬ i = k := fun h => hk h.symm
        simp [bump, countOf, hk, hij]
      · simp [bump, countOf, hk, hj, ih]

theorem breakingLoop_counts (category : BreakCategory) (higher : List Nat) (s : Store) :
    ∀ (ts : List Team) (st : LoopState) (inst : Nat),
      ∃ k, (breakingLoop category higher s st ts).rows.length = st.rows.length + k
        ∧ countOf (breakingLoop category higher s st ts).num_teams_from_institution inst
            = countOf st.num_teams_from_institution inst
              + ((ts.take k).filter (fun t => t.institution == inst)).length := by
  intro ts
  induction ts with
  | nil =>
    intro st inst
    exact ⟨0, by simp [breakingLoop_nil], by simp [breakingLoop_nil]⟩
  | cons team rest ih =>
    intro st inst
    by_cases h1 : st.stopped = true
    · exact ⟨0, by simp [breakingLoop_cons_stopped _ _ _ _ _ _ h1],
        by simp [breakingLoop_cons_stopped _ _ _ _ _ _ h1]⟩
    · rw [Bool.not_eq_true] at h1
      by_cases h2 : stopHere category st team = true
      · exact ⟨0, by simp [breakingLoop_cons_stop _ _ _ _ _ _ h1 h2],
          by simp [breakingLoop_cons_stop _ _ _ _ _ _ h1 h2]⟩
      · rw [Bool.not_eq_true] at h2
        obtain ⟨k, hk, hcount⟩ := ih (processTeam category higher s st team) inst
        refine ⟨k + 1, ?_, ?_⟩
        · rw [breakingLoop_cons_step _ _ _ _ _ _ h1 h2, hk, processTeam_rows]
          simp only [List.length_append, List.length_cons, List.length_nil]
          omega
        · rw [breakingLoop_cons_step _ _ _ _ _ _ h1 h2, hcount, processTeam_counts,
            countOf_bump, List.take_succ_cons, List.filter_cons]
          by_cases hi : team.institution = inst
          · simp [hi]
            omega
          · simp [hi]

theorem getRow_append : ∀ (a b : List (Nat × BreakingTeamRow)) (tid : Nat),
    getRow (a ++ b) tid
      = match getRow a tid with
        | some r => some r
        | Option.none => getRow b tid := by
  intro a
  induction a with
  | nil => intro b tid; rfl
  | cons p rest ih =>
    intro b tid
    obtain ⟨k, r⟩ := p
    by_cases hk : k = tid
    · simp [getRow, hk]
    · simp [getRow, hk, ih]

/-- The remark-skip branch (breaking.py lines 153-155): an existing row
with a remark keeps its remark, has its break rank scrubbed, gets the
current rank, and is not admitted. -/
theorem stepBranch_skip (category : BreakCategory) (higher : List Nat) (st : LoopState)
    (cur_rank : Nat) (is_new_rank : Bool) (team : Team) (r : BreakingTeamRow)
    (hrem : r.remark.isSome = true) :
    stepBranch category higher st cur_rank is_new_rank team (some r)
      = ({ r with rank := cur_rank, break_rank := Option.none }, false) := by
  simp [stepBranch, hrem]

theorem remark_skip_run (category : BreakCategory) (higher : List Nat) (s : Store) :
    ∀ (ts : List Team) (st : LoopState) (tid : Nat) (r : BreakingTeamRow),
      (ts.map Team.id).Nodup →
      getRow st.rows tid = Option.none →
      tid ∉ st.teams_breaking →
      s tid = some r →
      r.remark.isSome = true →
      ∀ r', getRow (breakingLoop category higher s st ts).rows tid = some r' →
        r'.remark = r.remark ∧ r'.break_rank = Option.none
          ∧ tid ∉ (breakingLoop category higher s st ts).teams_breaking := by
  intro ts
  induction ts with
  | nil =>
    intro st tid r _ hfresh _ _ _ r' hr'
    rw [breakingLoop_nil, hfresh] at hr'
    exact absurd hr' (by simp)
  | cons team rest ih =>
    intro st tid r hnodup hfresh hnbrk hs hrem r' hr'
    by_cases h1 : st.stopped = true
    · rw [breakingLoop_cons_stopped _ _ _ _ _ _ h1, hfresh] at hr'
      exact absurd hr' (by simp)
    · rw [Bool.not_eq_true] at h1
      by_cases h2 : stopHere category st team = true
      · rw [breakingLoop_cons_stop _ _ _ _ _ _ h1 h2] at hr'
        simp only at hr'
        rw [hfresh] at hr'
        exact absurd hr' (by simp)
      · rw [Bool.not_eq_true] at h2
        rw [breakingLoop_cons_step _ _ _ _ _ _ h1 h2] at hr' ⊢
        by_cases hteam : team.id = tid
        · have hstep : stepResult category higher s st team
              = ({ r with rank := curRankAt st team, break_rank := Option.none }, false) := by
            unfold stepResult
            rw [hteam, hs]
            exact stepBranch_skip category higher st (curRankAt st team) (isNewRank st team)
              team r hrem
          have hrows : (processTeam category higher s st team).rows
              = st.rows
                ++ [(tid, { r with rank := curRankAt st team, break_rank := Option.none })] := by
            rw [processTeam_rows, hstep, hteam]
          have hbrk : (processTeam category higher s st team).teams_breaking
              = st.teams_breaking := by
            rw [processTeam_teams_breaking, hstep]
            simp
          obtain ⟨d, hd, hdmem⟩ :=
            breakingLoop_rows_mono category higher s rest (processTeam category higher s st team)
          obtain ⟨db, hdb, hdbmem⟩ :=
            breakingLoop_breaking_mono category higher s rest
              (processTeam category higher s st team)
          have hval : getRow (breakingLoop category higher s
              (processTeam category higher s st team) rest).rows tid
              = some { r with rank := curRankAt st team, break_rank := Option.none } := by
            rw [hd, hrows, List.append_assoc, getRow_append, hfresh]
            simp [getRow]
          rw [hval] at hr'
          have hr'' : r' = { r with rank := curRankAt st team, break_rank := Option.none } :=
            Option.some_injective _ hr'.symm
          subst hr''
          refine ⟨rfl, rfl, ?_⟩
          rw [hdb, hbrk]
          intro hmem
          rcases List.mem_append.mp hmem with hmem | hmem
          · exact hnbrk hmem
          · have : tid ∈ rest.map Team.id := hdbmem tid hmem
            rw [List.map_cons, List.nodup_cons] at hnodup
            exact hnodup.1 (hteam ▸ this)
        · have hfresh' : getRow (processTeam category higher s st team).rows tid
              = Option.none := by
            rw [processTeam_rows, getRow_append, hfresh]
            simp [getRow, hteam]
          have hnbrk' : tid ∉ (processTeam category higher s st team).teams_breaking := by
            rw [processTeam_teams_breaking]
            by_cases hadm : (stepResult category higher s st team).2 = true
            · rw [if_pos hadm]
              intro hmem
              rcases List.mem_append.mp hmem with hmem | hmem
              · exact hnbrk hmem
              · simp at hmem
                exact hteam hmem.symm
            · rw [if_neg hadm]
              exact hnbrk
          rw [List.map_cons, List.nodup_cons] at hnodup
          exact ih (processTeam category higher s st team) tid r hnodup.2 hfresh' hnbrk'
            hs hrem r' hr'

/-- A row produced by a non-admitting branch for a team whose stored row
(if any) had no remark and no break rank has a null break rank.  (The
skip branch nulls it; the ineligible, capped and different-break branches
pass the stored row's break rank through.) -/
theorem stepBranch_break_rank_of_not_admitted (category : BreakCategory) (higher : List Nat)
    (st : LoopState) (cur_rank : Nat) (is_new_rank : Bool) (team : Team)
    (existing : Option BreakingTeamRow)
    (hbr : ∀ r0, existing = some r0 → r0.remark = Option.none → r0.break_rank = Option.none)
    (hflag : (stepBranch category higher st cur_rank is_new_rank team existing).2 = false) :
    (stepBranch category higher st cur_rank is_new_rank team existing).1.break_rank
      = Option.none := by
  rcases existing with _ | r0
  · by_cases hB : team.in_break_category
    · by_cases hC : capped_out category
          (countOf st.num_teams_from_institution team.institution) cur_rank = true
      · simp [stepBranch, hB, hC]
      · by_cases hD : team.id ∈ higher
        · simp [stepBranch, hB, hC, hD]
        · simp [stepBranch, hB, hC, hD] at hflag
    · simp [stepBranch, hB]
  · by_cases hA : r0.remark.isSome = true
    · simp [stepBranch, hA]
    · have hr0 : r0.remark = Option.none := Option.not_isSome_iff_eq_none.mp (by simp [hA])
      have hr0br : r0.break_rank = Option.none := hbr r0 rfl hr0
      by_cases hB : team.in_break_category
      · by_cases hC : capped_out category
            (countOf st.num_teams_from_institution team.institution) cur_rank = true
        · simp [stepBranch, hA, hB, hC, hr0br]
        · by_cases hD : team.id ∈ higher
          · simp [stepBranch, hA, hB, hC, hD, hr0br]
          · simp [stepBranch, hA, hB, hC, hD] at hflag
      · simp [stepBranch, hA, hB, hr0br]

/-- Re-running the branch block on the row it produced reproduces that
row and the same admission decision, provided a non-admitted row carries
a null break rank (which the delete step guarantees for every surviving
row, and which `stepBranch_break_rank_of_not_admitted` gives under the
C6 side condition). -/
theorem stepBranch_rerun (category : BreakCategory) (higher : List Nat)
    (st : LoopState) (cur_rank : Nat) (is_new_rank : Bool) (team : Team)
    (existing : Option BreakingTeamRow)
    (h : (stepBranch category higher st cur_rank is_new_rank team existing).2 = false →
      (stepBranch category higher st cur_rank is_new_rank team existing).1.break_rank
        = Option.none) :
    stepBranch category higher st cur_rank is_new_rank team
        (some (stepBranch category higher st cur_rank is_new_rank team existing).1)
      = stepBranch category higher st cur_rank is_new_rank team existing := by
  rcases existing with _ | r0
  · by_cases hB : team.in_break_category
    · by_cases hC : capped_out category
          (countOf st.num_teams_from_institution team.institution) cur_rank = true
      · simp [stepBranch, hB, hC]
      · by_cases hD : team.id ∈ higher
        · simp [stepBranch, hB, hC, hD]
        · simp [stepBranch, hB, hC, hD]
    · simp [stepBranch, hB]
  · by_cases hA : r0.remark.isSome = true
    · simp [stepBranch, hA]
    · have hA' : r0.remark.isSome = false := by simp [hA]
      by_cases hB : team.in_break_category
      · by_cases hC : capped_out category
            (countOf st.num_teams_from_institution team.institution) cur_rank = true
        · have hbr : r0.break_rank = Option.none := by
            have := h (by simp [stepBranch, hA', hB, hC])
            simpa [stepBranch, hA', hB, hC] using this
          simp [stepBranch, hA', hB, hC, hbr]
        · by_cases hD : team.id ∈ higher
          · have hbr : r0.break_rank = Option.none := by
              have := h (by simp [stepBranch, hA', hB, hC, hD])
              simpa [stepBranch, hA', hB, hC, hD] using this
            simp [stepBranch, hA', hB, hC, hD, hbr]
          · simp [stepBranch, hA', hB, hC, hD]
      · have hbr : r0.break_rank = Option.none := by
          have := h (by simp [stepBranch, hA', hB])
          simpa [stepBranch, hA', hB] using this
        simp [stepBranch, hA', hB, hbr]

theorem processTeam_congr (category : BreakCategory) (higher : List Nat) (s1 s2 : Store)
    (st : LoopState) (team : Team)
    (h : stepResult category higher s1 st team = stepResult category higher s2 st team) :
    processTeam category higher s1 st team = processTeam category higher s2 st team := by
  unfold processTeam
  rw [h]

theorem stepResult_def (category : BreakCategory) (higher : List Nat) (s : Store)
    (st : LoopState) (team : Team) :
    stepResult category higher s st team
      = stepBranch category higher st (curRankAt st team) (isNewRank st team) team
          (s team.id) := rfl

theorem update_def (category : BreakCategory) (ts : List Team) (higher : List Nat)
    (s : Store) (tid : Nat) :
    update_teams_breaking category ts higher s tid
      = finalRow (breakingLoop category higher s initState ts) s tid := rfl

theorem finalRow_unprocessed (fin : LoopState) (s : Store) (tid : Nat)
    (hg : getRow fin.rows tid = Option.none) :
    finalRow fin s tid
      = match s tid with
        | some r =>
            if r.break_rank.isSome && !(decide (tid ∈ fin.teams_breaking)) then Option.none
            else some r
        | Option.none => Option.none := by
  unfold finalRow
  rw [hg]

theorem finalRow_processed (fin : LoopState) (s : Store) (tid : Nat) (r : BreakingTeamRow)
    (hg : getRow fin.rows tid = some r) :
    finalRow fin s tid
      = if r.break_rank.isSome && !(decide (tid ∈ fin.teams_breaking)) then Option.none
        else some r := by
  unfold finalRow
  rw [hg]

/-- The lockstep lemma behind C6: re-running the walk against the store
the first run left behind reproduces the first run's loop state exactly,
provided every stored row with no remark and a non-null break rank
belongs to a team the first run admits (hypothesis `H`; without it the
delete step erases such a row and the second run diverges, see the C6
counterexample). -/
theorem breakingLoop_rerun (category : BreakCategory) (higher : List Nat) (s : Store)
    (ts0 : List Team)
    (H : ∀ tid r, s tid = some r → r.remark = Option.none → r.break_rank.isSome = true →
      tid ∈ (breakingLoop category higher s initState ts0).teams_breaking) :
    ∀ (ts : List Team) (st : LoopState),
      (ts.map Team.id).Nodup →
      (∀ t ∈ ts, getRow st.rows t.id = Option.none) →
      (∀ t ∈ ts, t.id ∉ st.teams_breaking) →
      breakingLoop category higher s st ts = breakingLoop category higher s initState ts0 →
      breakingLoop category higher (update_teams_breaking category ts0 higher s) st ts
        = breakingLoop category higher s st ts := by
  intro ts
  induction ts with
  | nil => intro st _ _ _ _; rfl
  | cons team rest ih =>
    intro st hnodup hfresh hnbrk hglue
    by_cases h1 : st.stopped = true
    · rw [breakingLoop_cons_stopped _ _ _ _ _ _ h1, breakingLoop_cons_stopped _ _ _ _ _ _ h1]
    · rw [Bool.not_eq_true] at h1
      by_cases h2 : stopHere category st team = true
      · rw [breakingLoop_cons_stop _ _ _ _ _ _ h1 h2, breakingLoop_cons_stop _ _ _ _ _ _ h1 h2]
      · rw [Bool.not_eq_true] at h2
        have hglue' : breakingLoop category higher s (processTeam category higher s st team) rest
            = breakingLoop category higher s initState ts0 := by
          rw [← breakingLoop_cons_step _ _ _ _ _ _ h1 h2]
          exact hglue
        have hnodup' := hnodup
        rw [List.map_cons, List.nodup_cons] at hnodup'
        have hfreshteam : getRow st.rows team.id = Option.none :=
          hfresh team (List.mem_cons_self team rest)
        obtain ⟨d, hd, hdmem⟩ := breakingLoop_rows_mono category higher s rest
          (processTeam category higher s st team)
        obtain ⟨db, hdb, hdbmem⟩ := breakingLoop_breaking_mono category higher s rest
          (processTeam category higher s st team)
        have hgetfin : getRow (breakingLoop category higher s initState ts0).rows team.id
            = some (stepResult category higher s st team).1 := by
          rw [← hglue', hd, processTeam_rows, List.append_assoc, getRow_append, hfreshteam]
          simp [getRow]
        have hnotin_fin : (stepResult category higher s st team).2 = false →
            team.id ∉ (breakingLoop category higher s initState ts0).teams_breaking := by
          intro hflag hmem
          rw [← hglue', hdb] at hmem
          rcases List.mem_append.mp hmem with hmem | hmem
          · rw [processTeam_teams_breaking, hflag] at hmem
            simp at hmem
            exact hnbrk team (List.mem_cons_self team rest) hmem
          · exact hnodup'.1 (hdbmem team.id hmem)
        have hadm_in : (stepResult category higher s st team).2 = true →
            team.id ∈ (breakingLoop category higher s initState ts0).teams_breaking := by
          intro hflag
          rw [← hglue', hdb]
          refine List.mem_append.mpr (Or.inl ?_)
          rw [processTeam_teams_breaking, hflag]
          simp
        have hkeepflag : (stepResult category higher s st team).2 = false →
            (stepResult category higher s st team).1.break_rank = Option.none := by
          intro hflag
          refine stepBranch_break_rank_of_not_admitted category higher st (curRankAt st team)
            (isNewRank st team) team (s team.id) ?_ hflag
          intro r0 hr0 hrem
          rcases hr0b : r0.break_rank with _ | v
          · rfl
          · exact absurd (H team.id r0 hr0 hrem (by simp [hr0b])) (hnotin_fin hflag)
        have hs1 : update_teams_breaking category ts0 higher s team.id
            = some (stepResult category higher s st team).1 := by
          rw [update_def, finalRow_processed _ _ _ _ hgetfin]
          by_cases hflag : (stepResult category higher s st team).2 = true
          · have hmem := hadm_in hflag
            simp [hmem]
          · have hflag' : (stepResult category higher s st team).2 = false := by
              simpa using hflag
            simp [hkeepflag hflag']
        have hstepeq : stepResult category higher
              (update_teams_breaking category ts0 higher s) st team
            = stepResult category higher s st team := by
          rw [stepResult_def, stepResult_def, hs1]
          exact stepBranch_rerun category higher st (curRankAt st team) (isNewRank st team)
            team (s team.id) (fun hf => hkeepflag hf)
        rw [breakingLoop_cons_step _ _ _ _ _ _ h1 h2,
          breakingLoop_cons_step _ _ _ _ _ _ h1 h2,
          processTeam_congr category higher _ s st team hstepeq]
        refine ih (processTeam category higher s st team) hnodup'.2 ?_ ?_ hglue'
        · intro t ht
          have hne : ¬ team.id = t.id :=
            fun he => hnodup'.1 (he ▸ List.mem_map_of_mem Team.id ht)
          rw [processTeam_rows, getRow_append, hfresh t (List.mem_cons_of_mem team ht)]
          simp [getRow, hne]
        · intro t ht
          rw [processTeam_teams_breaking]
          by_cases hadm : (stepResult category higher s st team).2 = true
          · rw [if_pos hadm]
            intro hmem
            rcases List.mem_append.mp hmem with hmem | hmem
            · exact hnbrk t (List.mem_cons_of_mem team ht) hmem
            · simp at hmem
              exact hnodup'.1 (hmem ▸ List.mem_map_of_mem Team.id ht)
          · rw [if_neg hadm]
            exact hnbrk t (List.mem_cons_of_mem team ht)

theorem update_all_go_cons_same (st : AllState) (ci : CategoryInput)
    (rest : List CategoryInput) (h : st.cur_priority = some ci.category.priority) :
    update_all_go st (ci :: rest)
      = { priority := ci.category.priority
          higherUsed := st.teams_broken_higher_priority
          breaking := (generate_teams_breaking ci.category ci.teams
              st.teams_broken_higher_priority ci.store).teams_breaking
          store := fun tid => finalRow (generate_teams_breaking ci.category ci.teams
              st.teams_broken_higher_priority ci.store) ci.store tid }
        :: update_all_go
          { teams_broken_higher_priority := st.teams_broken_higher_priority
            teams_broken_cur_priority := st.teams_broken_cur_priority
              ++ (generate_teams_breaking ci.category ci.teams
                  st.teams_broken_higher_priority ci.store).teams_breaking
            cur_priority := st.cur_priority }
          rest := by
  simp [update_all_go, h]

theorem update_all_go_cons_new (st : AllState) (ci : CategoryInput)
    (rest : List CategoryInput) (h : ¬ st.cur_priority = some ci.category.priority) :
    update_all_go st (ci :: rest)
      = { priority := ci.category.priority
          higherUsed := st.teams_broken_higher_priority ++ st.teams_broken_cur_priority
          breaking := (generate_teams_breaking ci.category ci.teams
              (st.teams_broken_higher_priority ++ st.teams_broken_cur_priority)
              ci.store).teams_breaking
          store := fun tid => finalRow (generate_teams_breaking ci.category ci.teams
              (st.teams_broken_higher_priority ++ st.teams_broken_cur_priority)
              ci.store) ci.store tid }
        :: update_all_go
          { teams_broken_higher_priority :=
              st.teams_broken_higher_priority ++ st.teams_broken_cur_priority
            teams_broken_cur_priority := (generate_teams_breaking ci.category ci.teams
              (st.teams_broken_higher_priority ++ st.teams_broken_cur_priority)
              ci.store).teams_breaking
            cur_priority := some ci.category.priority }
          rest := by
  simp [update_all_go, h]

theorem update_all_go_length : ∀ (inputs : List CategoryInput) (st : AllState),
    (update_all_go st inputs).length = inputs.length := by
  intro inputs
  induction inputs with
  | nil => intro st; rfl
  | cons ci rest ih =>
    intro st
    by_cases h : st.cur_priority = some ci.category.priority
    · rw [update_all_go_cons_same st ci rest h]
      simp [ih]
    · rw [update_all_go_cons_new st ci rest h]
      simp [ih]

theorem update_all_go_priority : ∀ (inputs : List CategoryInput) (st : AllState) (k : Nat)
    (o : CatResult), (update_all_go st inputs).get? k = some o →
    ∃ ci, inputs.get? k = some ci ∧ o.priority = ci.category.priority := by
  intro inputs
  induction inputs with
  | nil =>
    intro st k o ho
    exact absurd ho (by simp [update_all_go])
  | cons ci rest ih =>
    intro st k o ho
    by_cases h : st.cur_priority = some ci.category.priority
    · rw [update_all_go_cons_same st ci rest h] at ho
      cases k with
      | zero =>
        refine ⟨ci, rfl, ?_⟩
        injection ho with ho
        rw [← ho]
      | succ k => exact ih _ k o ho
    · rw [update_all_go_cons_new st ci rest h] at ho
      cases k with
      | zero =>
        refine ⟨ci, rfl, ?_⟩
        injection ho with ho
        rw [← ho]
      | succ k => exact ih _ k o ho

theorem update_all_go_higher_mono : ∀ (inputs : List CategoryInput) (st : AllState) (tid : Nat),
    tid ∈ st.teams_broken_higher_priority →
    ∀ o ∈ update_all_go st inputs, tid ∈ o.higherUsed := by
  intro inputs
  induction inputs with
  | nil =>
    intro st tid _ o ho
    exact absurd ho (by simp [update_all_go])
  | cons ci rest ih =>
    intro st tid hmem o ho
    by_cases h : st.cur_priority = some ci.category.priority
    · rw [update_all_go_cons_same st ci rest h] at ho
      rcases List.mem_cons.mp ho with ho | ho
      · subst ho
        exact hmem
      · refine ih _ tid ?_ o ho
        exact hmem
    · rw [update_all_go_cons_new st ci rest h] at ho
      rcases List.mem_cons.mp ho with ho | ho
      · subst ho
        exact List.mem_append.mpr (Or.inl hmem)
      · refine ih _ tid ?_ o ho
        exact List.mem_append.mpr (Or.inl hmem)

theorem update_all_go_cur_to_higher : ∀ (inputs : List CategoryInput) (st : AllState)
    (p : Int) (tid : Nat),
    st.cur_priority = some p →
    tid ∈ st.teams_broken_cur_priority →
    ∀ o ∈ update_all_go st inputs, p < o.priority → tid ∈ o.higherUsed := by
  intro inputs
  induction inputs with
  | nil =>
    intro st p tid _ _ o ho
    exact absurd ho (by simp [update_all_go])
  | cons ci rest ih =>
    intro st p tid hcp hmem o ho hlt
    by_cases h : st.cur_priority = some ci.category.priority
    · have hpq : p = ci.category.priority := by
        rw [hcp] at h
        exact Option.some_injective _ h
      rw [update_all_go_cons_same st ci rest h] at ho
      rcases List.mem_cons.mp ho with ho | ho
      · subst ho
        exact absurd hlt (by simp [hpq])
      · refine ih _ p tid ?_ ?_ o ho hlt
        · exact hcp
        · exact List.mem_append.mpr (Or.inl hmem)
    · rw [update_all_go_cons_new st ci rest h] at ho
      rcases List.mem_cons.mp ho with ho | ho
      · subst ho
        exact List.mem_append.mpr (Or.inr hmem)
      · refine update_all_go_higher_mono rest _ tid ?_ o ho
        exact List.mem_append.mpr (Or.inr hmem)

theorem stepBranch_admitted_not_higher (category : BreakCategory) (higher : List Nat)
    (st : LoopState) (cur_rank : Nat) (is_new_rank : Bool) (team : Team)
    (existing : Option BreakingTeamRow)
    (hadm : (stepBranch category higher st cur_rank is_new_rank team existing).2 = true) :
    team.id ∉ higher := by
  intro hmem
  rcases existing with _ | r0
  · by_cases hB : team.in_break_category
    · by_cases hC : capped_out category
          (countOf st.num_teams_from_institution team.institution) cur_rank = true
      · simp [stepBranch, hB, hC] at hadm
      · simp [stepBranch, hB, hC, hmem] at hadm
    · simp [stepBranch, hB] at hadm
  · by_cases hA : r0.remark.isSome = true
    · simp [stepBranch, hA] at hadm
    · have hA' : r0.remark.isSome = false := by simp [hA]
      by_cases hB : team.in_break_category
      · by_cases hC : capped_out category
            (countOf st.num_teams_from_institution team.institution) cur_rank = true
        · simp [stepBranch, hA', hB, hC] at hadm
        · simp [stepBranch, hA', hB, hC, hmem] at hadm
      · simp [stepBranch, hA', hB] at hadm

theorem breakingLoop_not_in_higher (category : BreakCategory) (higher : List Nat) (s : Store) :
    ∀ (ts : List Team) (st : LoopState) (tid : Nat), tid ∈ higher →
      tid ∉ st.teams_breaking →
      tid ∉ (breakingLoop category higher s st ts).teams_breaking := by
  intro ts
  induction ts with
  | nil =>
    intro st tid _ hnb
    rw [breakingLoop_nil]
    exact hnb
  | cons team rest ih =>
    intro st tid hhi hnb
    by_cases h1 : st.stopped = true
    · rw [breakingLoop_cons_stopped _ _ _ _ _ _ h1]
      exact hnb
    · rw [Bool.not_eq_true] at h1
      by_cases h2 : stopHere category st team = true
      · rw [breakingLoop_cons_stop _ _ _ _ _ _ h1 h2]
        exact hnb
      · rw [Bool.not_eq_true] at h2
        rw [breakingLoop_cons_step _ _ _ _ _ _ h1 h2]
        refine ih (processTeam category higher s st team) tid hhi ?_
        rw [processTeam_teams_breaking]
        by_cases hadm : (stepResult category higher s st team).2 = true
        · rw [if_pos hadm]
          intro hmem
          rcases List.mem_append.mp hmem with hmem | hmem
          · exact hnb hmem
          · simp at hmem
            subst hmem
            exact stepBranch_admitted_not_higher category higher st (curRankAt st team)
              (isNewRank st team) team (s team.id) hadm hhi
        · rw [if_neg hadm]
          exact hnb

theorem update_all_go_not_breaking_of_higher :
    ∀ (inputs : List CategoryInput) (st : AllState) (j : Nat) (oj : CatResult) (tid : Nat),
      (update_all_go st inputs).get? j = some oj →
      tid ∈ oj.higherUsed → tid ∉ oj.breaking := by
  intro inputs
  induction inputs with
  | nil =>
    intro st j oj tid ho
    exact absurd ho (by simp [update_all_go])
  | cons ci rest ih =>
    intro st j oj tid ho hhi
    by_cases h : st.cur_priority = some ci.category.priority
    · rw [update_all_go_cons_same st ci rest h] at ho
      cases j with
      | zero =>
        injection ho with ho
        subst ho
        exact breakingLoop_not_in_higher ci.category _ ci.store ci.teams initState tid hhi
          (by simp [initState])
      | succ j => exact ih _ j oj tid ho hhi
    · rw [update_all_go_cons_new st ci rest h] at ho
      cases j with
      | zero =>
        injection ho with ho
        subst ho
        exact breakingLoop_not_in_higher ci.category _ ci.store ci.teams initState tid hhi
          (by simp [initState])
      | succ j => exact ih _ j oj tid ho hhi

theorem update_all_go_lower_in_higher :
    ∀ (inputs : List CategoryInput) (st : AllState) (i j : Nat) (oi oj : CatResult)
      (tid : Nat),
      i < j →
      (update_all_go st inputs).get? i = some oi →
      (update_all_go st inputs).get? j = some oj →
      oi.priority < oj.priority →
      tid ∈ oi.breaking → tid ∈ oj.higherUsed := by
  intro inputs
  induction inputs with
  | nil =>
    intro st i j oi oj tid _ hoi
    exact absurd hoi (by simp [update_all_go])
  | cons ci rest ih =>
    intro st i j oi oj tid hij hoi hoj hplt hmem
    by_cases h : st.cur_priority = some ci.category.priority
    · rw [update_all_go_cons_same st ci rest h] at hoi hoj
      cases i with
      | zero =>
        injection hoi with hoi
        subst hoi
        cases j with
        | zero => exact absurd hij (by simp)
        | succ j =>
          refine update_all_go_cur_to_higher rest _ ci.category.priority tid ?_ ?_ oj
            (List.get?_mem hoj) (by simpa using hplt)
          · exact h
          · exact List.mem_append.mpr (Or.inr hmem)
      | succ i =>
        cases j with
        | zero => exact absurd hij (by simp)
        | succ j => exact ih _ i j oi oj tid (Nat.lt_of_succ_lt_succ hij) hoi hoj hplt hmem
    · rw [update_all_go_cons_new st ci rest h] at hoi hoj
      cases i with
      | zero =>
        injection hoi with hoi
        subst hoi
        cases j with
        | zero => exact absurd hij (by simp)
        | succ j =>
          refine update_all_go_cur_to_higher rest _ ci.category.priority tid rfl ?_ oj
            (List.get?_mem hoj) (by simpa using hplt)
          exact hmem
      | succ i =>
        cases j with
        | zero => exact absurd hij (by simp)
        | succ j => exact ih _ i j oi oj tid (Nat.lt_of_succ_lt_succ hij) hoi hoj hplt hmem

theorem update_all_go_higher_const :
    ∀ (inputs : List CategoryInput) (st : AllState) (q : Int) (j : Nat) (oj : CatResult),
      st.cur_priority = some q →
      (∀ k ci, k ≤ j → inputs.get? k = some ci → ci.category.priority = q) →
      (update_all_go st inputs).get? j = some oj →
      oj.higherUsed = st.teams_broken_higher_priority := by
  intro inputs
  induction inputs with
  | nil =>
    intro st q j oj _ _ ho
    exact absurd ho (by simp [update_all_go])
  | cons ci rest ih =>
    intro st q j oj hcp hall ho
    have h0 : ci.category.priority = q := hall 0 ci (Nat.zero_le j) rfl
    have h : st.cur_priority = some ci.category.priority := by rw [hcp, h0]
    rw [update_all_go_cons_same st ci rest h] at ho
    cases j with
    | zero =>
      injection ho with ho
      subst ho
      rfl
    | succ j =>
      refine ih
        { teams_broken_higher_priority := st.teams_broken_higher_priority
          teams_broken_cur_priority := st.teams_broken_cur_priority
            ++ (generate_teams_breaking ci.category ci.teams
                st.teams_broken_higher_priority ci.store).teams_breaking
          cur_priority := st.cur_priority }
        q j oj hcp ?_ ho
      intro k ci' hk hci'
      exact hall (k + 1) ci' (Nat.succ_le_succ hk) hci'

theorem update_all_go_equal_priority :
    ∀ (inputs : List CategoryInput) (st : AllState) (i j : Nat) (oi oj : CatResult),
      List.Pairwise (fun a b => a.category.priority ≤ b.category.priority) inputs →
      i ≤ j →
      (update_all_go st inputs).get? i = some oi →
      (update_all_go st inputs).get? j = some oj →
      oi.priority = oj.priority →
      oj.higherUsed = oi.higherUsed := by
  intro inputs
  induction inputs with
  | nil =>
    intro st i j oi oj _ _ hoi
    exact absurd hoi (by simp [update_all_go])
  | cons ci rest ih =>
    intro st i j oi oj hsort hij hoi hoj hpeq
    obtain ⟨hrel, hsort'⟩ := List.pairwise_cons.mp hsort
    -- facts about the head output, shared by the reset and no-reset cases
    have hcons : ∀ (o1 : CatResult) (st2 : AllState),
        update_all_go st (ci :: rest) = o1 :: update_all_go st2 rest →
        o1.priority = ci.category.priority →
        st2.cur_priority = some ci.category.priority →
        st2.teams_broken_higher_priority = o1.higherUsed →
        oj.higherUsed = oi.higherUsed := by
      intro o1 st2 hgo hp1 hcp2 hhi2
      rw [hgo] at hoi hoj
      cases i with
      | zero =>
        injection hoi with hoi
        subst hoi
        cases j with
        | zero =>
          injection hoj with hoj
          subst hoj
          rfl
        | succ j =>
          have hojp : ∃ cij, rest.get? j = some cij ∧ oj.priority = cij.category.priority :=
            update_all_go_priority rest st2 j oj hoj
          obtain ⟨cij, hcij, hcijp⟩ := hojp
          have hcijq : cij.category.priority = ci.category.priority := by
            rw [← hcijp, ← hpeq, hp1]
          refine Eq.trans (update_all_go_higher_const rest st2 ci.category.priority j oj
            hcp2 ?_ hoj) hhi2
          intro k ci' hk hci'
          have hle1 : ci.category.priority ≤ ci'.category.priority :=
            hrel ci' (List.get?_mem hci')
          rcases Nat.lt_or_ge k j with hkj | hkj
          · have hk' : k < rest.length := (List.get?_eq_some.mp hci').1
            have hj' : j < rest.length := (List.get?_eq_some.mp hcij).1
            have hle2 : ci'.category.priority ≤ cij.category.priority := by
              have hpair := List.pairwise_iff_get.mp hsort' ⟨k, hk'⟩ ⟨j, hj'⟩ hkj
              have he1 : rest.get ⟨k, hk'⟩ = ci' := by
                have := (List.get?_eq_some.mp hci').2
                exact this
              have he2 : rest.get ⟨j, hj'⟩ = cij := by
                have := (List.get?_eq_some.mp hcij).2
                exact this
              rw [he1, he2] at hpair
              exact hpair
            exact le_antisymm (hcijq ▸ hle2) hle1
          · have hkj' : k = j := Nat.le_antisymm hk hkj
            subst hkj'
            rw [hci'] at hcij
            injection hcij with hcij
            rw [hcij]
            exact hcijq
      | succ i =>
        cases j with
        | zero => exact absurd hij (by simp)
        | succ j =>
          exact ih st2 i j oi oj hsort' (Nat.le_of_succ_le_succ hij) hoi hoj hpeq
    by_cases h : st.cur_priority = some ci.category.priority
    · exact hcons _ _ (update_all_go_cons_same st ci rest h) rfl h rfl
    · exact hcons _ _ (update_all_go_cons_new st ci rest h) rfl rfl rfl

theorem finalRow_unprocessed_none (fin : LoopState) (s : Store) (tid : Nat)
    (hg : getRow fin.rows tid = Option.none) (hs : s tid = Option.none) :
    finalRow fin s tid = Option.none := by
  unfold finalRow
  rw [hg, hs]

theorem finalRow_unprocessed_some (fin : LoopState) (s : Store) (tid : Nat)
    (r0 : BreakingTeamRow) (hg : getRow fin.rows tid = Option.none)
    (hs : s tid = some r0) :
    finalRow fin s tid
      = if r0.break_rank.isSome && !(decide (tid ∈ fin.teams_breaking)) then Option.none
        else some r0 := by
  unfold finalRow
  rw [hg, hs]

theorem finalRow_break_rank_mem (fin : LoopState) (s : Store) (tid : Nat)
    (r : BreakingTeamRow) (hfr : finalRow fin s tid = some r)
    (hbr : r.break_rank.isSome = true) :
    tid ∈ fin.teams_breaking := by
  by_contra hmem
  have hdec : decide (tid ∈ fin.teams_breaking) = false := by
    simp [hmem]
  rcases hg : getRow fin.rows tid with _ | r'
  · rcases hs0 : s tid with _ | r0
    · rw [finalRow_unprocessed_none _ _ _ hg hs0] at hfr
      exact absurd hfr (by simp)
    · rw [finalRow_unprocessed_some _ _ _ _ hg hs0] at hfr
      by_cases hC : (r0.break_rank.isSome && !(decide (tid ∈ fin.teams_breaking))) = true
      · rw [if_pos hC] at hfr
        exact absurd hfr (by simp)
      · rw [if_neg hC] at hfr
        injection hfr with hfr
        subst hfr
        exact hC (by simp [hbr, hdec])
  · rw [finalRow_processed _ _ _ _ hg] at hfr
    by_cases hC : (r'.break_rank.isSome && !(decide (tid ∈ fin.teams_breaking))) = true
    · rw [if_pos hC] at hfr
      exact absurd hfr (by simp)
    · rw [if_neg hC] at hfr
      injection hfr with hfr
      subst hfr
      exact hC (by simp [hbr, hdec])

theorem update_all_go_store_breaking :
    ∀ (inputs : List CategoryInput) (st : AllState) (j : Nat) (oj : CatResult) (tid : Nat),
      (update_all_go st inputs).get? j = some oj →
      hasBreakRank oj.store tid = true →
      tid ∈ oj.breaking := by
  intro inputs
  induction inputs with
  | nil =>
    intro st j oj tid ho
    exact absurd ho (by simp [update_all_go])
  | cons ci rest ih =>
    intro st j oj tid ho hbrk
    have hcons : ∀ (o1 : CatResult) (st2 : AllState),
        update_all_go st (ci :: rest) = o1 :: update_all_go st2 rest →
        (∃ fin s0, o1.store = (fun u => finalRow fin s0 u) ∧ o1.breaking = fin.teams_breaking) →
        tid ∈ oj.breaking := by
      intro o1 st2 hgo hshape
      rw [hgo] at ho
      cases j with
      | zero =>
        injection ho with ho
        subst ho
        obtain ⟨fin, s0, hst, hbk⟩ := hshape
        rw [hst] at hbrk
        unfold hasBreakRank at hbrk
        have hbrk' : (match finalRow fin s0 tid with
            | some r => r.break_rank.isSome
            | Option.none => false) = true := hbrk
        rcases hfr : finalRow fin s0 tid with _ | r
        · rw [hfr] at hbrk'
          exact absurd hbrk' (by simp)
        · rw [hfr] at hbrk'
          rw [hbk]
          exact finalRow_break_rank_mem fin s0 tid r hfr hbrk'
      | succ j => exact ih st2 j oj tid ho hbrk
    by_cases h : st.cur_priority = some ci.category.priority
    · exact hcons _ _ (update_all_go_cons_same st ci rest h) ⟨_, _, rfl, rfl⟩
    · exact hcons _ _ (update_all_go_cons_new st ci rest h) ⟨_, _, rfl, rfl⟩

/-! ## Claim theorems -/

/-- Claim C1, counterexample.  The claim states that under the AIDA 2016
rule admission continues past `break_size` while the next team's points
stay at or above 5.  In this run the category uses the AIDA 2016 rule,
team 2 sits on a new distinct rank value with 5 points, `break_size = 1`
teams are already breaking — and the walk stops: team 2 is not admitted,
refuting the claimed exception at this input. -/
theorem c1_counterexample :
    c1cat.institution_cap_rule = CapRule.aida2016
  ∧ c1cat.break_size = 1
  ∧ c1teams.map Team.points = [6, 5]
  ∧ (generate_teams_breaking c1cat c1teams [] emptyStore).teams_breaking = [1]
  ∧ 2 ∉ (generate_teams_breaking c1cat c1teams [] emptyStore).teams_breaking := by
  decide

/-- Claim C1, amended.  Once `break_size` teams are marked breaking, the
walk stops at the first team with a new distinct `(points,
speaker_score)` value — under every institution-cap rule, AIDA 2016
included, so no such team is ever admitted past `break_size`; moreover,
under AIDA 2016 the walk also stops at the first new distinct value whose
points are below 5, even when fewer than `break_size` teams are breaking.
The conclusion freezes the whole state: nothing after the stopping team
is processed or admitted. -/
theorem c1_amended (category : BreakCategory) (higher : List Nat) (s : Store)
    (done : List Team) (team : Team) (rest : List Team)
    (h1 : (breakingLoop category higher s initState done).stopped = false)
    (h2 : (breakingLoop category higher s initState done).prev_rank_value
        ≠ some (rankValue team))
    (h3 : category.break_size
          ≤ (breakingLoop category higher s initState done).teams_breaking.length
        ∨ (category.institution_cap_rule = CapRule.aida2016 ∧ team.points < 5)) :
    breakingLoop category higher s initState (done ++ team :: rest)
      = { breakingLoop category higher s initState done with stopped := true } := by
  rw [breakingLoop_append]
  have hnew : isNewRank (breakingLoop category higher s initState done) team = true :=
    decide_eq_true h2
  have hstop : stopHere category (breakingLoop category higher s initState done) team = true := by
    simp only [stopHere, hnew, Bool.true_and]
    rcases h3 with h3 | ⟨h3a, h3b⟩
    · simp [h3]
    · simp [h3a, h3b]
  exact breakingLoop_cons_stop category higher s _ team rest h1 hstop

/-- Witness for C1's amended theorem: the AIDA-2016 category `c1cat` of
break size 1, after admitting team 1, stops at team 2 (a new rank value
on 5 points). -/
theorem c1_amended_witness :
    (breakingLoop c1cat [] emptyStore initState [⟨1, 7, 6, 70, true⟩]).stopped = false
  ∧ (breakingLoop c1cat [] emptyStore initState [⟨1, 7, 6, 70, true⟩]).prev_rank_value
      ≠ some (rankValue ⟨2, 8, 5, 60, true⟩)
  ∧ c1cat.break_size
      ≤ (breakingLoop c1cat [] emptyStore initState [⟨1, 7, 6, 70, true⟩]).teams_breaking.length
  ∧ breakingLoop c1cat [] emptyStore initState ([⟨1, 7, 6, 70, true⟩] ++ [⟨2, 8, 5, 60, true⟩])
      = { breakingLoop c1cat [] emptyStore initState [⟨1, 7, 6, 70, true⟩] with
          stopped := true } :=
  ⟨by decide, by decide, by decide,
    c1_amended c1cat [] emptyStore [⟨1, 7, 6, 70, true⟩] ⟨2, 8, 5, 60, true⟩ []
      (by decide) (by decide) (Or.inl (by decide))⟩

/-- Claim C2 (code bug): evaluation of the break computation at the
spec's own backfill scenario (institution cap 1, teams A and B from one
institution, C from another, `break_size = 3`).  Because the backfill
block of `_generate_teams_breaking` (breaking.py lines 188-205) is
truncated by a syntax error, nothing brings team 2 back: only teams 1 and
3 end with a non-null `break_rank`, not `min(break_size, 3) = 3` as the
claim requires, and team 2 keeps its `REMARK_CAPPED` row. -/
theorem c2_backfill_dead :
    (generate_teams_breaking c2cat c2teams [] emptyStore).teams_breaking = [1, 3]
  ∧ update_teams_breaking c2cat c2teams [] emptyStore 1 = some ⟨1, some 1, Option.none⟩
  ∧ update_teams_breaking c2cat c2teams [] emptyStore 2
      = some ⟨2, Option.none, some Remark.capped⟩
  ∧ update_teams_breaking c2cat c2teams [] emptyStore 3 = some ⟨3, some 2, Option.none⟩
  ∧ c2cat.break_size = 3 := by
  decide

/-- Claim C3 (code bug): evaluation of the break computation at a run in
which an ineligible team opens a `(points, speaker_score)` tie group and
an eligible team of the same value follows.  The eligible team (id 2) is
the first admitted team, so by the claim (and by the docstrings of
breaking.py) its `break_rank` should be 1; the code instead emits the
initial `cur_break_rank = 0`, because `cur_break_rank` is only refreshed
when the admitted team itself starts a new rank value. -/
theorem c3_break_rank_zero :
    (generate_teams_breaking c3cat c3teams [] emptyStore).teams_breaking = [2]
  ∧ getRow (generate_teams_breaking c3cat c3teams [] emptyStore).rows 1
      = some ⟨1, Option.none, some Remark.ineligible⟩
  ∧ getRow (generate_teams_breaking c3cat c3teams [] emptyStore).rows 2
      = some ⟨1, some 0, Option.none⟩ := by
  decide

/-- Claim C4 (code bug): the three institution-cap variants of the
`_capped_out` body, evaluated on concrete inputs.  With rule `none` no
count caps a team; with the flat (pre-2015) rule a team is capped exactly
when its institution's counted teams have reached `institution_cap`; with
the AIDA 2016 hybrid the flat cap applies while `cur_rank ≤ break_size`
and a 1-team cap beyond it.  (The literal source cannot run: its
parameter list does not match the call site and its body reads an unbound
`cur_rank`; this theorem is about the body under the call site's
binding.) -/
theorem c4_cap_rule_variants :
    capped_out ⟨4, 2, CapRule.capNone, 1⟩ 99 1 = false
  ∧ capped_out ⟨4, 2, CapRule.aidaPre2015, 1⟩ 1 1 = false
  ∧ capped_out ⟨4, 2, CapRule.aidaPre2015, 1⟩ 2 1 = true
  ∧ capped_out ⟨4, 2, CapRule.aida2016, 1⟩ 1 4 = false
  ∧ capped_out ⟨4, 2, CapRule.aida2016, 1⟩ 2 4 = true
  ∧ capped_out ⟨4, 2, CapRule.aida2016, 1⟩ 1 5 = true
  ∧ capped_out ⟨4, 2, CapRule.aida2016, 1⟩ 0 5 = false := by
  decide

/-- Claim C5, counterexample.  Team 1 breaks in the priority-1 category
and is ineligible for the priority-2 category; the claim says every team
that broke in a strictly lower priority-number tier is excluded "with
REMARK_DIFFERENT_BREAK" from every later computation, but the
ineligibility check (breaking.py line 158) precedes the different-break
check (line 166), so team 1's stored remark in the later category is
`REMARK_INELIGIBLE`. -/
theorem c5_counterexample :
    (update_all_teams_breaking c5inputs).map CatResult.breaking = [[1], []]
  ∧ ((update_all_teams_breaking c5inputs).get? 1).map (fun r => r.store 1)
      = some (some ⟨1, Option.none, some Remark.ineligible⟩) := by
  decide

/-- Claim C6, counterexample.  Starting from a store in which team 2
holds a row with a non-null `break_rank` and no remark, the first
recomputation caps team 2 (keeping the stale `break_rank`, breaking.py
lines 161-163 set only the remark) and the delete step (lines 214-215)
then removes the row; the second recomputation recreates it with a null
`break_rank`.  The two runs' results differ on team 2, so the computation
is not idempotent from every prior state. -/
theorem c6_counterexample :
    update_teams_breaking c6cat c6teams [] (update_teams_breaking c6cat c6teams [] c6store) 2
      ≠ update_teams_breaking c6cat c6teams [] c6store 2 := by
  decide

/-- Claim C7, counterexample.  Team 2's existing row carries a remark and
a non-null `break_rank`, but the walk never reaches team 2; the delete
step (breaking.py lines 214-215) removes the row outright, so the remark
is not preserved, against the claim's universal "for every team whose
existing BreakingTeam row carries a remark". -/
theorem c7_counterexample :
    c7store 2 = some ⟨1, some 1, some Remark.withdrawn⟩
  ∧ update_teams_breaking c7cat c7teams [] c7store 2 = Option.none := by
  decide

/-- Claim C5, amended.  With the categories processed in ascending
priority-number order (the `order_by('priority')` queryset), (a) every
team breaking in a category of strictly smaller priority number is in the
exclusion set (`teams_broken_higher_priority`) used by every later
category of strictly larger priority number; (b) no member of a
category's exclusion set is ever admitted by that category — though its
recorded remark need not be `REMARK_DIFFERENT_BREAK`, since an existing
remark, ineligibility, or the institution cap is checked first (see the
counterexample); (c) categories of equal priority use the very same
exclusion set, so they do not exclude each other's breakers; and
consequently (d) no team ends with a non-null `break_rank` in the stored
rows of two categories of strictly different priority. -/
theorem c5_amended (inputs : List CategoryInput)
    (hsort : inputs.Pairwise (fun a b => a.category.priority ≤ b.category.priority)) :
    (∀ (i j : Nat) (oi oj : CatResult) (tid : Nat),
      (update_all_teams_breaking inputs).get? i = some oi →
      (update_all_teams_breaking inputs).get? j = some oj →
      oi.priority < oj.priority →
      tid ∈ oi.breaking → tid ∈ oj.higherUsed)
  ∧ (∀ (j : Nat) (oj : CatResult) (tid : Nat),
      (update_all_teams_breaking inputs).get? j = some oj →
      tid ∈ oj.higherUsed → tid ∉ oj.breaking)
  ∧ (∀ (i j : Nat) (oi oj : CatResult), i ≤ j →
      (update_all_teams_breaking inputs).get? i = some oi →
      (update_all_teams_breaking inputs).get? j = some oj →
      oi.priority = oj.priority →
      oj.higherUsed = oi.higherUsed)
  ∧ (∀ (i j : Nat) (oi oj : CatResult) (tid : Nat),
      (update_all_teams_breaking inputs).get? i = some oi →
      (update_all_teams_breaking inputs).get? j = some oj →
      oi.priority ≠ oj.priority →
      ¬(hasBreakRank oi.store tid = true ∧ hasBreakRank oj.store tid = true)) := by
  have hsorted_out : ∀ (i j : Nat) (oi oj : CatResult), i < j →
      (update_all_teams_breaking inputs).get? i = some oi →
      (update_all_teams_breaking inputs).get? j = some oj →
      oi.priority ≤ oj.priority := by
    intro i j oi oj hij hoi hoj
    obtain ⟨cii, hcii, hpi⟩ := update_all_go_priority inputs _ i oi hoi
    obtain ⟨cij, hcij, hpj⟩ := update_all_go_priority inputs _ j oj hoj
    have hi' : i < inputs.length := (List.get?_eq_some.mp hcii).1
    have hj' : j < inputs.length := (List.get?_eq_some.mp hcij).1
    have hpair := List.pairwise_iff_get.mp hsort ⟨i, hi'⟩ ⟨j, hj'⟩ (Fin.mk_lt_mk.mpr hij)
    rw [(List.get?_eq_some.mp hcii).2, (List.get?_eq_some.mp hcij).2] at hpair
    rw [hpi, hpj]
    exact hpair
  refine ⟨?_, ?_, ?_, ?_⟩
  · intro i j oi oj tid hoi hoj hplt hmem
    have hij : i < j := by
      rcases Nat.lt_trichotomy i j with h | h | h
      · exact h
      · subst h
        rw [hoi] at hoj
        injection hoj with e
        rw [e] at hplt
        exact absurd hplt (lt_irrefl _)
      · have hle := hsorted_out j i oj oi h hoj hoi
        exact absurd (lt_of_lt_of_le hplt hle) (lt_irrefl _)
    exact update_all_go_lower_in_higher inputs _ i j oi oj tid hij hoi hoj hplt hmem
  · intro j oj tid hoj hhi
    exact update_all_go_not_breaking_of_higher inputs _ j oj tid hoj hhi
  · intro i j oi oj hij hoi hoj hpeq
    exact update_all_go_equal_priority inputs _ i j oi oj hsort hij hoi hoj hpeq
  · rintro i j oi oj tid hoi hoj hne ⟨hb1, hb2⟩
    rcases Nat.lt_trichotomy i j with h | h | h
    · have hle := hsorted_out i j oi oj h hoi hoj
      have hplt : oi.priority < oj.priority := lt_of_le_of_ne hle hne
      have hmem1 : tid ∈ oi.breaking :=
        update_all_go_store_breaking inputs _ i oi tid hoi hb1
      have hhi := update_all_go_lower_in_higher inputs _ i j oi oj tid h hoi hoj hplt hmem1
      have hmem2 : tid ∈ oj.breaking :=
        update_all_go_store_breaking inputs _ j oj tid hoj hb2
      exact update_all_go_not_breaking_of_higher inputs _ j oj tid hoj hhi hmem2
    · subst h
      rw [hoi] at hoj
      injection hoj with e
      exact hne (by rw [e])
    · have hle := hsorted_out j i oj oi h hoj hoi
      have hplt : oj.priority < oi.priority := lt_of_le_of_ne hle (Ne.symm hne)
      have hmem2 : tid ∈ oj.breaking :=
        update_all_go_store_breaking inputs _ j oj tid hoj hb2
      have hhi := update_all_go_lower_in_higher inputs _ j i oj oi tid h hoj hoi hplt hmem2
      have hmem1 : tid ∈ oi.breaking :=
        update_all_go_store_breaking inputs _ i oi tid hoi hb1
      exact update_all_go_not_breaking_of_higher inputs _ i oi tid hoi hhi hmem1

/-- Witness for C5's amended theorem at the two-category input of the
counterexample: team 1 breaks in the priority-1 category, so its row in
the priority-2 category has no break rank. -/
theorem c5_amended_witness :
    c5inputs.Pairwise (fun a b => a.category.priority ≤ b.category.priority)
  ∧ ¬(hasBreakRank (((update_all_teams_breaking c5inputs).get? 0).get (by decide)).store 1
        = true
      ∧ hasBreakRank (((update_all_teams_breaking c5inputs).get? 1).get (by decide)).store 1
        = true) :=
  ⟨by decide,
    (c5_amended c5inputs (by decide)).2.2.2 0 1
      (((update_all_teams_breaking c5inputs).get? 0).get (by decide))
      (((update_all_teams_breaking c5inputs).get? 1).get (by decide)) 1
      (Option.some_get _).symm (Option.some_get _).symm (by decide)⟩

/-- Claim C6, amended.  Recomputation is idempotent — the second run
produces pointwise the same stored rows as the first, manual remarks
preserved — provided every stored row carrying a non-null `break_rank`
and no remark belongs to a team the run admits (hypothesis `H`).  The
proviso is forced by the counterexample: a no-remark row with a non-null
`break_rank` for a processed-but-not-admitted team keeps its stale
`break_rank` (the capped/ineligible/different-break branches set only the
remark), is therefore deleted by the cleanup step, and is recreated with
a null `break_rank` by the next run, so the first and second runs differ
there.  Starting states with no stored rows satisfy `H` vacuously. -/
theorem c6_amended (category : BreakCategory) (higher : List Nat) (s : Store)
    (ts : List Team) (tid : Nat)
    (hnodup : (ts.map Team.id).Nodup)
    (H : ∀ t r, s t = some r → r.remark = Option.none → r.break_rank.isSome = true →
      t ∈ (generate_teams_breaking category ts higher s).teams_breaking) :
    update_teams_breaking category ts higher (update_teams_breaking category ts higher s) tid
      = update_teams_breaking category ts higher s tid := by
  have hloop : breakingLoop category higher (update_teams_breaking category ts higher s)
        initState ts
      = breakingLoop category higher s initState ts := by
    refine breakingLoop_rerun category higher s ts H ts initState hnodup ?_ ?_ rfl
    · intro t _
      simp [initState, getRow]
    · intro t _
      simp [initState]
  rw [update_def, hloop]
  rcases hg : getRow (breakingLoop category higher s initState ts).rows tid with _ | r
  · rw [finalRow_unprocessed _ _ _ hg, update_def, finalRow_unprocessed _ _ _ hg]
    rcases hs0 : s tid with _ | r0
    · rfl
    · by_cases hC : (r0.break_rank.isSome
          && !(decide (tid ∈ (breakingLoop category higher s initState ts).teams_breaking)))
          = true
      · simp [hC]
      · have hC' : (r0.break_rank.isSome
            && !(decide (tid ∈ (breakingLoop category higher s initState ts).teams_breaking)))
            = false := by simpa using hC
        simp [hC']
  · rw [finalRow_processed _ _ _ _ hg, update_def, finalRow_processed _ _ _ _ hg]

/-- Witness for C6's amended theorem: starting from the empty store (the
side condition holds vacuously), recomputing after a first computation
changes nothing. -/
theorem c6_amended_witness :
    (([⟨1, 7, 6, 70, true⟩] : List Team).map Team.id).Nodup
  ∧ update_teams_breaking c6cat [⟨1, 7, 6, 70, true⟩] []
        (update_teams_breaking c6cat [⟨1, 7, 6, 70, true⟩] [] emptyStore) 1
      = update_teams_breaking c6cat [⟨1, 7, 6, 70, true⟩] [] emptyStore 1 :=
  ⟨by decide,
    c6_amended c6cat [] emptyStore [⟨1, 7, 6, 70, true⟩] 1 (by decide)
      (fun t r h => nomatch h)⟩

/-- Claim C7, amended.  For every team the walk reaches whose existing
row carries a remark, the branch block leaves the remark unchanged, sets
the row's break rank to null, still updates the rank field to the walk's
current rank, and does not admit the team; at run level, the row the walk
stores for such a team keeps the remark, has a null break rank, the team
is not in the breaking set, and the row survives the delete step
unchanged.  (A remarked row whose team the walk never reaches is not
covered: the delete step removes it outright when its break rank is
non-null, as the counterexample shows.) -/
theorem c7_amended :
    (∀ (category : BreakCategory) (higher : List Nat) (st : LoopState) (cur_rank : Nat)
        (is_new_rank : Bool) (team : Team) (r : BreakingTeamRow),
      r.remark.isSome = true →
      stepBranch category higher st cur_rank is_new_rank team (some r)
        = ({ r with rank := cur_rank, break_rank := Option.none }, false))
  ∧ (∀ (category : BreakCategory) (higher : List Nat) (s : Store) (ts : List Team)
        (tid : Nat) (r r' : BreakingTeamRow),
      (ts.map Team.id).Nodup →
      s tid = some r →
      r.remark.isSome = true →
      getRow (generate_teams_breaking category ts higher s).rows tid = some r' →
      r'.remark = r.remark ∧ r'.break_rank = Option.none
        ∧ tid ∉ (generate_teams_breaking category ts higher s).teams_breaking
        ∧ update_teams_breaking category ts higher s tid = some r') := by
  constructor
  · intro category higher st cur_rank is_new_rank team r hrem
    exact stepBranch_skip category higher st cur_rank is_new_rank team r hrem
  · intro category higher s ts tid r r' hnodup hs hrem hr'
    obtain ⟨ha, hb, hc⟩ := remark_skip_run category higher s ts initState tid r hnodup
      (by simp [initState, getRow]) (by simp [initState]) hs hrem r' hr'
    refine ⟨ha, hb, hc, ?_⟩
    unfold update_teams_breaking finalRow
    rw [show generate_teams_breaking category ts higher s
        = breakingLoop category higher s initState ts from rfl] at hr' ⊢
    rw [hr']
    simp [hb]

/-- Witness for C7's amended theorem: team 1's stored row carries a
withdrawn remark and break rank 4; the walk keeps the remark, scrubs the
break rank, re-ranks the row to 1, and the delete step keeps the row. -/
theorem c7_amended_witness :
    stepBranch c7cat [] initState 1 true ⟨1, 7, 6, 70, true⟩
        (some ⟨3, some 4, some Remark.withdrawn⟩)
      = (⟨1, Option.none, some Remark.withdrawn⟩, false)
  ∧ update_teams_breaking c7cat [⟨1, 7, 6, 70, true⟩] []
        (fun tid => if tid == 1 then some ⟨3, some 4, some Remark.withdrawn⟩ else Option.none) 1
      = some ⟨1, Option.none, some Remark.withdrawn⟩ :=
  ⟨c7_amended.1 c7cat [] initState 1 true ⟨1, 7, 6, 70, true⟩
      ⟨3, some 4, some Remark.withdrawn⟩ (by decide),
    (c7_amended.2 c7cat []
      (fun tid => if tid == 1 then some ⟨3, some 4, some Remark.withdrawn⟩ else Option.none)
      [⟨1, 7, 6, 70, true⟩] 1 ⟨3, some 4, some Remark.withdrawn⟩
      ⟨1, Option.none, some Remark.withdrawn⟩
      (by decide) (by decide) (by decide) (by decide)).2.2.2⟩

/-- Claim C8: the per-institution counter consulted by the
institution-cap check is incremented for every processed team, admitted
or not: after the walk, the counter value for an institution equals the
number of teams of that institution among the processed prefix (the first
`rows.length` teams of the ranked sequence), so ineligible, capped,
different-break and remark-skipped teams all count toward the cap seen by
lower-ranked teams of their institution. -/
theorem c8_counter_counts_all_processed (category : BreakCategory) (higher : List Nat)
    (s : Store) (teams : List Team) (inst : Nat) :
    countOf (breakingLoop category higher s initState teams).num_teams_from_institution inst
      = ((teams.take (breakingLoop category higher s initState teams).rows.length).filter
          (fun t => t.institution == inst)).length := by
  obtain ⟨k, hk, hcount⟩ := breakingLoop_counts category higher s teams initState inst
  have hk0 : (breakingLoop category higher s initState teams).rows.length = k := by
    simpa [initState] using hk
  rw [hk0, hcount]
  simp [initState, countOf]

/-- Claim C9: an adjudicator allocation is `valid` exactly when it has a
chair and its panel size is even, and `save` persists an allocation
without consulting `valid`: the concrete chairless allocation with panel
`[7]` is invalid yet `save` still produces its rows unchanged. -/
theorem c9_valid_iff_even_panel_and_chair :
    (∀ a : AdjudicatorAllocation,
      a.valid = true ↔ (a.chair.isSome = true ∧ a.panel.length % 2 = 0))
  ∧ AdjudicatorAllocation.valid ⟨Option.none, [7], []⟩ = false
  ∧ AdjudicatorAllocation.save ⟨Option.none, [7], []⟩ = [(AdjType.panel, 7)] := by
  refine ⟨fun a => ?_, by decide, by decide⟩
  simp [AdjudicatorAllocation.valid, AdjudicatorAllocation.has_chair,
    Bool.and_eq_true, beq_iff_eq]

/-- Claim C10: with fewer active venues than pairings, `make_debates`
raises `DrawError` before creating any debate, so the call persists no
debate at all. -/
theorem c10_insufficient_venues (active_venues : List Venue) (pairings : List DrawPairing)
    (h : active_venues.length < pairings.length) :
    make_debates active_venues pairings
      = Except.error (DrawError.insufficient_venues pairings.length active_venues.length)
  ∧ created_debates (make_debates active_venues pairings) = [] := by
  have hlen : (active_venues.take pairings.length).length = active_venues.length := by
    rw [List.length_take]
    exact Nat.min_eq_right (Nat.le_of_lt h)
  have hmain : make_debates active_venues pairings
      = Except.error (DrawError.insufficient_venues pairings.length active_venues.length) := by
    unfold make_debates
    simp only [hlen]
    rw [if_pos h]
  exact ⟨hmain, by rw [hmain]; rfl⟩

/-- Witness for C10 at a concrete input: no venue, one pairing. -/
theorem c10_insufficient_venues_witness :
    ([] : List Venue).length < [(⟨1, 2, false, false, Option.none, 0, 1, []⟩ : DrawPairing)].length
  ∧ (make_debates [] [⟨1, 2, false, false, Option.none, 0, 1, []⟩]
      = Except.error (DrawError.insufficient_venues 1 0)
    ∧ created_debates (make_debates [] [⟨1, 2, false, false, Option.none, 0, 1, []⟩]) = []) :=
  ⟨by decide, c10_insufficient_venues [] [⟨1, 2, false, false, Option.none, 0, 1, []⟩] (by decide)⟩

end Tabbycat
